import Mathlib

set_option maxRecDepth 8000

namespace FlowSync

/-! # Model of the FlowSync development server (`server.js`)

JavaScript strings are modelled as `List Char` (`Str`).  The Node
`path.posix` functions used by the server (`normalize`, `join`,
`extname`) are embedded faithfully from Node's `lib/path.js` algorithm,
at the level of `/`-separated segments for `normalize`/`join` and as a
right-to-left character scan for `extname`. -/

/-- Model of a JavaScript string: a finite sequence of characters. -/
abbrev Str := List Char

/-- The two-character parent-directory segment `..`. -/
def dd : Str := ['.', '.']

/-- Split a character sequence at every forward slash.  Always returns a
nonempty list of slash-free segments (how Node's path functions scan the
text between separator characters). -/
def splitSeg : Str → List Str
  | [] => [[]]
  | c :: rest =>
    if c = '/' then [] :: splitSeg rest
    else
      match splitSeg rest with
      | [] => [[c]]
      | s :: ss => (c :: s) :: ss

/-- Join segments back with forward slashes (inverse of `splitSeg`). -/
def icSlash : List Str → Str
  | [] => []
  | [s] => s
  | s :: rest => s ++ '/' :: icSlash rest

/-- Core of Node's `normalizeString`: fold the segments over a stack held
in reverse (head = innermost directory).  Empty and `.` segments are
skipped; `..` pops a non-`..` top, is kept when `allowAbove` is true and
nothing poppable remains, and is dropped otherwise (the absolute-path
case, where `..` at the root vanishes). -/
def normAcc (allowAbove : Bool) : List Str → List Str → List Str
  | acc, [] => acc
  | acc, s :: rest =>
    if s = [] ∨ s = ['.'] then normAcc allowAbove acc rest
    else if s = dd then
      match acc with
      | [] => normAcc allowAbove (if allowAbove then [dd] else []) rest
      | t :: ts =>
        if t = dd then normAcc allowAbove (if allowAbove then dd :: t :: ts else t :: ts) rest
        else normAcc allowAbove ts rest
    else normAcc allowAbove (s :: acc) rest

/-- Node `path.posix.normalize`: resolves `.`/`..` segments and collapses
repeated slashes, keeping leading `..` segments on relative paths
(`allowAboveRoot := !isAbsolute`), preserving a trailing slash, and
returning `.` for an empty relative result and `/` for an empty absolute
one. -/
def posixNormalize (p : Str) : Str :=
  if p = [] then ['.']
  else if p.head? = some '/' then
    let core := icSlash ((normAcc false [] (splitSeg p)).reverse)
    let core := if core ≠ [] ∧ p.getLast? = some '/' then core ++ ['/'] else core
    '/' :: core
  else
    let core := icSlash ((normAcc true [] (splitSeg p)).reverse)
    let core := if core = [] then ['.'] else core
    let core := if core ≠ [] ∧ p.getLast? = some '/' then core ++ ['/'] else core
    core

/-- Node `path.posix.join` on two parts: empty parts are dropped, the
rest are glued with `/` and the result normalized (`.` when both are
empty). -/
def posixJoin (a b : Str) : Str :=
  if a = [] ∧ b = [] then ['.']
  else if a = [] then posixNormalize b
  else if b = [] then posixNormalize a
  else posixNormalize (a ++ '/' :: b)

/-- `req.url.split('?')[0]`: the request target up to the first `?`. -/
def stripQuery (u : Str) : Str := u.takeWhile (fun c => c ≠ '?')

/-- The replace of `/^(\.\.[\/\\])+/` with the empty string: greedily
strip leading `../` and `..\` units. -/
def stripDots (s : Str) : Str :=
  match s with
  | c1 :: c2 :: c3 :: rest =>
    if c1 = '.' ∧ c2 = '.' ∧ (c3 = '/' ∨ c3 = '\\') then stripDots rest
    else c1 :: c2 :: c3 :: rest
  | s => s

/-- The literal `'index.html'`. -/
def indexHtml : Str := "index.html".data

/-- The request-dispatcher path pipeline of `createHttpServer`
(`server.js:266-277`): drop the query string, `path.normalize`, strip
leading `../` sequences, append `index.html` to `/` or trailing-slash
paths via `path.join`, and drop one leading slash. -/
def requestPath (u : Str) : Str :=
  let q := stripQuery u
  let d := stripDots (posixNormalize q)
  let j := if d = ['/'] ∨ d.getLast? = some '/' then posixJoin d indexHtml else d
  if j.head? = some '/' then j.tail else j

/-- Resolution of `path.join(config.staticDir, filePath)`
(`server.js:202`) at the segment level: the static root is an absolute
directory given as its list of segments, and the relative path's
segments are folded onto it with the absolute-path (`allowAbove :=
false`) rules of Node's normalization.  The result is the list of
segments of the file the read hits. -/
def resolveUnder (root : List Str) (rel : Str) : List Str :=
  (normAcc false root.reverse (splitSeg rel)).reverse

/-- The directory denoted by an absolute request path `q`, namely the
segments of `path.posix.normalize q` (root-relative). -/
def dirOf (q : Str) : List Str := (normAcc false [] (splitSeg q)).reverse

/-- A plain path segment: not empty, not `.`, not `..`, and slash-free
(the kind of segment `normAcc` pushes). -/
abbrev plainSeg (s : Str) : Prop := s ≠ [] ∧ s ≠ ['.'] ∧ s ≠ dd ∧ '/' ∉ s

/-- No element of the segment list is the `..` segment. -/
abbrev noDD (L : List Str) : Prop := ∀ m ∈ L, m ≠ dd

example : posixNormalize "/a//b/../c/".data = "/a/c/".data := by decide
example : posixNormalize "../../x".data = "../../x".data := by decide
example : posixNormalize [] = ['.'] := by decide
example : posixNormalize "a/..".data = ['.'] := by decide
example : posixNormalize "/..".data = ['/'] := by decide
example : stripDots "../..".data = "..".data := by decide
example : requestPath "/docs/?q=1".data = "docs/index.html".data := by decide
example : requestPath "/../etc/passwd".data = "etc/passwd".data := by decide
example : requestPath "..".data = "..".data := by decide
example : requestPath "http://a/../../..".data = "..".data := by decide
example : requestPath "http://a/../../../".data = [] := by decide
example : resolveUnder ["app".data, "src".data] "..".data = ["app".data] := by decide
example : resolveUnder ["app".data, "src".data] "a/b".data
    = ["app".data, "src".data, "a".data, "b".data] := by decide

/-! ## MIME classification (`getMimeType`, `server.js:196-199`) -/

/-- Scanner state of Node's `path.posix.extname` right-to-left loop;
`-1` is the "not seen yet" sentinel exactly as in `lib/path.js`. -/
structure ExtState where
  startDot : Int
  startPart : Nat
  endIdx : Int
  matchedSlash : Bool
  preDotState : Int
deriving DecidableEq

/-- One-to-one transcription of the loop body of Node's posix `extname`,
run over the `(index, char)` pairs of the path from right to left; a
slash with `matchedSlash` unset records `startPart` and breaks. -/
def extScan : List (Nat × Char) → ExtState → ExtState
  | [], st => st
  | (i, c) :: rest, st =>
    if c = '/' then
      if st.matchedSlash = false then { st with startPart := i + 1 }
      else extScan rest st
    else
      let st1 := if st.endIdx = -1 then { st with matchedSlash := false, endIdx := (i : Int) + 1 }
                 else st
      let st2 :=
        if c = '.' then
          if st1.startDot = -1 then { st1 with startDot := (i : Int) }
          else if st1.preDotState ≠ 1 then { st1 with preDotState := 1 }
          else st1
        else if st1.startDot ≠ -1 then { st1 with preDotState := -1 }
        else st1
      extScan rest st2

/-- Node `path.posix.extname`: the final test and slice after the scan. -/
def extname (p : Str) : Str :=
  let st := extScan p.enum.reverse ⟨-1, 0, -1, true, 0⟩
  if st.startDot = -1 ∨ st.endIdx = -1 ∨ st.preDotState = 0 ∨
      (st.preDotState = 1 ∧ st.startDot = st.endIdx - 1 ∧ st.startDot = (st.startPart : Int) + 1)
  then []
  else ((p.drop st.startDot.toNat).take (st.endIdx - st.startDot).toNat)

/-- The fixed `customMimeTypes` table (`server.js:44-59`). -/
def customMimeTypes : List (Str × Str) :=
  [ (".html".data, "text/html; charset=utf-8".data)
  , (".css".data, "text/css; charset=utf-8".data)
  , (".js".data, "application/javascript; charset=utf-8".data)
  , (".json".data, "application/json; charset=utf-8".data)
  , (".png".data, "image/png".data)
  , (".jpg".data, "image/jpeg".data)
  , (".jpeg".data, "image/jpeg".data)
  , (".gif".data, "image/gif".data)
  , (".svg".data, "image/svg+xml; charset=utf-8".data)
  , (".ico".data, "image/x-icon".data)
  , (".woff".data, "font/woff".data)
  , (".woff2".data, "font/woff2".data)
  , (".ttf".data, "font/ttf".data)
  , (".eot".data, "application/vnd.ms-fontobject".data)
  ]

/-- The generic fallback type. -/
def octetStream : Str := "application/octet-stream".data

/-- `getMimeType` (`server.js:196-199`).  The `mime-types` package's
`lookup` is an external dependency, so it is abstracted as a parameter
`lib` returning `none` for its falsy `false` result and `some t` for a
(truthy, nonempty) type string. -/
def getMimeType (lib : Str → Option Str) (filePath : Str) : Str :=
  let ext := (extname filePath).map Char.toLower
  match customMimeTypes.lookup ext with
  | some m => m
  | none =>
    match lib filePath with
    | some m => m
    | none => octetStream

example : extname "style.CSS".data = ".CSS".data := by decide
example : extname "a.tar.gz".data = ".gz".data := by decide
example : extname ".bashrc".data = [] := by decide
example : extname "..".data = [] := by decide
example : extname "file.".data = ".".data := by decide
example : getMimeType (fun _ => none) "style.CSS".data = "text/css; charset=utf-8".data := by
  decide
example : getMimeType (fun _ => none) "x.weird".data = octetStream := by decide

/-! ## Configuration and the live-reload port (`config`, `server.js:18-21`)

`process.env.PORT` is a string when the variable is set, so `config.port`
is a JavaScript value that is a number only in the default case; `+`
follows the JavaScript overload (string operand means concatenation). -/

/-- A JavaScript value as far as `config.port` is concerned. -/
inductive JsVal where
  | num : Nat → JsVal
  | str : Str → JsVal
deriving DecidableEq

/-- Decimal rendering, as JavaScript number-to-string conversion. -/
def natToStr (n : Nat) : Str := Nat.toDigits 10 n

/-- The JavaScript `+` operator on the values `config.port` can take:
number addition, else string concatenation with number-to-string
coercion. -/
def jsAdd : JsVal → JsVal → JsVal
  | JsVal.num a, JsVal.num b => JsVal.num (a + b)
  | JsVal.str a, JsVal.num b => JsVal.str (a ++ natToStr b)
  | JsVal.num a, JsVal.str b => JsVal.str (natToStr a ++ b)
  | JsVal.str a, JsVal.str b => JsVal.str (a ++ b)

/-- `config.port = process.env.PORT || 3000`: the environment value (a
string) when set and truthy (nonempty), else the number 3000. -/
def configPort (envPort : Option Str) : JsVal :=
  match envPort with
  | some s => if s ≠ [] then JsVal.str s else JsVal.num 3000
  | none => JsVal.num 3000

/-- `config.port + 1`: the value used both for
`new WebSocket.Server({ port: config.port + 1 })` (`server.js:128`) and
inside the injected script's `ws://localhost:` URL (`server.js:75`). -/
def wsPort (envPort : Option Str) : JsVal := jsAdd (configPort envPort) (JsVal.num 1)

/-- Text form of a JsVal, as template-literal interpolation renders it. -/
def jsValToStr : JsVal → Str
  | JsVal.num n => natToStr n
  | JsVal.str s => s

/-! ## The injected live-reload script (`liveReloadScript`, `server.js:65-116`) -/

/-- The script template before the `config.port + 1` interpolation. -/
def lrPre : Str := "\n<script>\n(function() \x7b\n    'use strict';\n    \n    let reconnectAttempts = 0;\n    const maxReconnectAttempts = 10;\n    const reconnectInterval = 2000;\n    \n    function connect() \x7b\n        const ws = new WebSocket('ws://localhost:".data

/-- The script template after the `config.port + 1` interpolation. -/
def lrPost : Str := "');\n        \n        ws.onopen = function() \x7b\n            console.log('[Live Reload] Connected to server');\n            reconnectAttempts = 0;\n        \x7d;\n        \n        ws.onmessage = function(event) \x7b\n            if (event.data === 'reload') \x7b\n                console.log('[Live Reload] Reloading page...');\n                window.location.reload();\n            \x7d\n        \x7d;\n        \n        ws.onclose = function() \x7b\n            console.log('[Live Reload] Connection closed');\n            \n            if (reconnectAttempts < maxReconnectAttempts) \x7b\n                setTimeout(() => \x7b\n                    reconnectAttempts++;\n                    console.log('[Live Reload] Attempting to reconnect... (' + reconnectAttempts + '/' + maxReconnectAttempts + ')');\n                    connect();\n                \x7d, reconnectInterval);\n            \x7d else \x7b\n                console.log('[Live Reload] Max reconnection attempts reached');\n            \x7d\n        \x7d;\n        \n        ws.onerror = function(error) \x7b\n            console.error('[Live Reload] WebSocket error:', error);\n        \x7d;\n    \x7d\n    \n    // Start connection when DOM is ready\n    if (document.readyState === 'loading') \x7b\n        document.addEventListener('DOMContentLoaded', connect);\n    \x7d else \x7b\n        connect();\n    \x7d\n\x7d)();\n</script>\n".data

/-- `liveReloadScript`: the template literal with `config.port + 1`
interpolated, for the environment the process started with. -/
def liveReloadScript (envPort : Option Str) : Str :=
  lrPre ++ jsValToStr (wsPort envPort) ++ lrPost

/-! ## Serving a file (`serveFile`, `server.js:201-262`) -/

/-- The closing body tag searched for by the injection. -/
def bodyTag : Str := "</body>".data

/-- The token `mimeType.includes('text/html')` tests for. -/
def htmlToken : Str := "text/html".data

/-- JavaScript `String.prototype.includes`: the pattern occurs somewhere
in the string. -/
def occurs (pat : Str) : Str → Bool
  | [] => pat.isPrefixOf []
  | c :: t => pat.isPrefixOf (c :: t) || occurs pat t

/-- JavaScript `String.prototype.replace` with a plain-string pattern
(no `$` sequences in the replacement): replace the first occurrence
only; the string is unchanged when the pattern does not occur. -/
def jsReplace (pat rep : Str) : Str → Str
  | [] => if pat.isPrefixOf ([] : Str) then rep else []
  | c :: t =>
    if pat.isPrefixOf (c :: t) then rep ++ (c :: t).drop pat.length
    else c :: jsReplace pat rep t

/-- UTF-8 byte length of a character sequence: the `Buffer.from(s).length`
of the model. -/
def byteLen (s : Str) : Nat := (s.map Char.utf8Size).sum

/-- The 404 page before the `${filePath}` interpolation. -/
def nfPre : Str := "\n                <!DOCTYPE html>\n                <html lang=\"en\">\n                <head>\n                    <meta charset=\"UTF-8\">\n                    <meta name=\"viewport\" content=\"width=device-width, initial-scale=1.0\">\n                    <title>404 - File Not Found</title>\n                    <style>\n                        body \x7b \n                            font-family: -apple-system, BlinkMacSystemFont, 'Segoe UI', Roboto, sans-serif; \n                            text-align: center; \n                            padding: 50px; \n                            color: #333; \n                        \x7d\n                        h1 \x7b color: #e74c3c; \x7d\n                        .back-link \x7b \n                            display: inline-block; \n                            margin-top: 20px; \n                            padding: 10px 20px; \n                            background: #4a90e2; \n                            color: white; \n                            text-decoration: none; \n                            border-radius: 5px; \n                        \x7d\n                    </style>\n                </head>\n                <body>\n                    <h1>404 - File Not Found</h1>\n                    <p>The requested file <code>".data

/-- The 404 page after the `${filePath}` interpolation. -/
def nfPost : Str := "</code> could not be found.</p>\n                    <a href=\"/\" class=\"back-link\">‚Üê Back to Home</a>\n                </body>\n                </html>\n            ".data

/-- The full 404 body for a given request path. -/
def notFoundBody (filePath : Str) : Str := nfPre ++ filePath ++ nfPost

/-- The HTML content type used on the 404 path. -/
def htmlContentType : Str := "text/html; charset=utf-8".data

/-- An HTTP response as `serveFile` writes it: status, the headers it
sets (`none` for a header it does not set), and the body. -/
structure Response where
  status : Nat
  contentType : Str
  cacheControl : Option Str
  pragma : Option Str
  expires : Option Str
  contentLength : Option Nat
  body : Str
deriving DecidableEq

/-- `serveFile` (`server.js:201-262`), with the outcome of
`fs.readFile(path.join(config.staticDir, filePath))` passed in as
`readResult` (`none` = any read error) and the truthiness of the global
`wsServer` as `ws`.  The function is total: a read failure produces the
404 response rather than an exception. -/
def serveFile (envPort : Option Str) (lib : Str → Option Str) (ws : Bool)
    (filePath : Str) (readResult : Option Str) : Response :=
  match readResult with
  | none =>
    { status := 404, contentType := htmlContentType
      cacheControl := none, pragma := none, expires := none
      contentLength := none, body := notFoundBody filePath }
  | some data =>
    let mimeType := getMimeType lib filePath
    if occurs htmlToken mimeType ∧ ws then
      let newData := jsReplace bodyTag (liveReloadScript envPort ++ bodyTag) data
      { status := 200, contentType := mimeType
        cacheControl := some "no-cache, no-store, must-revalidate".data
        pragma := some "no-cache".data, expires := some "0".data
        contentLength := some (byteLen newData), body := newData }
    else
      { status := 200, contentType := mimeType
        cacheControl := some "no-cache, no-store, must-revalidate".data
        pragma := some "no-cache".data, expires := some "0".data
        contentLength := none, body := data }

/-- The request log line `${req.method} ${req.url}` (the wall-clock
timestamp prefix is outside the model). -/
def logLine (method url : Str) : Str := method ++ ' ' :: url

/-- The whole request handler of `createHttpServer` (`server.js:264-286`):
sanitize the path, log, and serve; the filesystem is a map from resolved
segment paths to file contents (`none` = unreadable). -/
def handleRequest (envPort : Option Str) (lib : Str → Option Str) (ws : Bool)
    (root : List Str) (fsys : List Str → Option Str) (method url : Str) :
    Response × Str :=
  let p := requestPath url
  (serveFile envPort lib ws p (fsys (resolveUnder root p)), logLine method url)

/-! ## The WebSocket broadcast (`broadcastReload`, `server.js:148-157`) -/

/-- A push connection: an identity and the numeric `readyState`
(1 = `WebSocket.OPEN`). -/
structure WsConn where
  id : Nat
  readyState : Nat
deriving DecidableEq

/-- The token broadcast on changes. -/
def reloadToken : Str := "reload".data

/-- `broadcastReload`: when the connection list is nonempty, send
`'reload'` to every connection whose `readyState` is 1; the function
only reads `wsConnections`, so the returned state is the input list and
the second component is the ordered list of `(connection, message)`
sends performed. -/
def broadcastReload (conns : List WsConn) : List WsConn × List (Nat × Str) :=
  if conns.length > 0 then
    (conns, (conns.filter (fun c => c.readyState = 1)).map (fun c => (c.id, reloadToken)))
  else (conns, [])

/-! ## The debounced watcher (`scheduleReload`, `server.js:172-187`) -/

/-- The debounce delay in milliseconds. -/
def debounceMs : Nat := 100

/-- Discrete-time simulation of `scheduleReload`'s single shared timer:
events arrive at nondecreasing times; a pending timer that is already
due when an event arrives has fired (its firing time is recorded),
otherwise `clearTimeout` cancels it; each event re-arms the timer for
`t + 100`; after the last event the pending timer fires.  The result is
the list of times `broadcastReload` runs. -/
def debounceRun : Option Nat → List Nat → List Nat
  | pending, [] =>
    match pending with
    | some d => [d]
    | none => []
  | pending, t :: rest =>
    match pending with
    | some d =>
      if d ≤ t then d :: debounceRun (some (t + debounceMs)) rest
      else debounceRun (some (t + debounceMs)) rest
    | none => debounceRun (some (t + debounceMs)) rest

example : wsPort none = JsVal.num 3001 := by decide
example : wsPort (some "8080".data) = JsVal.str "80801".data := by decide
example : debounceRun none [0, 30, 60, 140] = [240] := by decide
example : debounceRun none [0, 200] = [100, 300] := by decide
example : jsReplace "ab".data "X".data "zabab".data = "zXab".data := by decide
example : occurs "ab".data "zab".data = true := by decide
example : (serveFile none (fun _ => none) true "a.html".data
    (some "<p>x</p>".data)).contentLength = some 8 := by decide

/-! ## Lemmas about `jsReplace` and `occurs` -/

theorem jsReplace_of_not_occurs (pat rep : Str) :
    ∀ s : Str, occurs pat s = false → jsReplace pat rep s = s := by
  intro s
  induction s with
  | nil =>
    intro h
    simp only [occurs] at h
    simp [jsReplace, h]
  | cons c t ih =>
    intro h
    simp only [occurs, Bool.or_eq_false_iff] at h
    simp [jsReplace, h.1, ih h.2]

theorem jsReplace_first_occurrence (pat rep : Str) :
    ∀ s : Str, occurs pat s = true →
      ∃ pre post, s = pre ++ pat ++ post
        ∧ (∀ i, i < pre.length → ¬ pat <+: s.drop i)
        ∧ jsReplace pat rep s = pre ++ rep ++ post := by
  intro s
  induction s with
  | nil =>
    intro h
    simp only [occurs, List.isPrefixOf_iff_prefix, List.prefix_nil] at h
    refine ⟨[], [], by simp [h], by simp, ?_⟩
    simp [jsReplace, h]
  | cons c t ih =>
    intro h
    by_cases hp : pat.isPrefixOf (c :: t)
    · have hp' : pat <+: c :: t := by simpa [List.isPrefixOf_iff_prefix] using hp
      obtain ⟨post, hpost⟩ := hp'
      refine ⟨[], post, by simp [hpost.symm], by simp, ?_⟩
      simp only [jsReplace, hp, if_pos, List.nil_append]
      rw [← hpost, List.drop_left' rfl]
    · have ht : occurs pat t = true := by
        simp only [occurs, hp, Bool.false_or] at h
        exact h
      obtain ⟨pre, post, hs, hmin, hrep⟩ := ih ht
      refine ⟨c :: pre, post, by simp [hs], ?_, ?_⟩
      · intro i hi
        cases i with
        | zero =>
          simpa [List.isPrefixOf_iff_prefix] using hp
        | succ j =>
          intro hcon
          exact hmin j (by simpa using hi) (by simpa using hcon)
      · simp [jsReplace, hp, hrep]

/-! ## Claim theorems: responses, MIME, ports, broadcast, debounce -/

/-- C9: the request handler never branches on the HTTP method — two
requests with the same URL against the same filesystem, configuration
and push-channel state produce identical responses (status, every
header, and body); the method reaches only the log line. -/
theorem response_ignores_method (envPort : Option Str) (lib : Str → Option Str)
    (ws : Bool) (root : List Str) (fsys : List Str → Option Str)
    (m1 m2 u : Str) :
    (handleRequest envPort lib ws root fsys m1 u).1
      = (handleRequest envPort lib ws root fsys m2 u).1 := rfl

/-- C6: when the read of the resolved path fails, the handler answers
with status 404, Content-Type `text/html; charset=utf-8` and the fixed
404 HTML page (with the path interpolated), setting no other header;
`serveFile` is a total function, so the failure is handled locally and
nothing propagates to the process. -/
theorem read_failure_gives_404 (envPort : Option Str) (lib : Str → Option Str)
    (ws : Bool) (root : List Str) (fsys : List Str → Option Str) (method u : Str)
    (h : fsys (resolveUnder root (requestPath u)) = none) :
    (handleRequest envPort lib ws root fsys method u).1
      = { status := 404, contentType := htmlContentType
          cacheControl := none, pragma := none, expires := none
          contentLength := none, body := notFoundBody (requestPath u) } := by
  simp [handleRequest, h, serveFile]

/-- Witness for C6 at a concrete request against an empty filesystem. -/
theorem read_failure_gives_404_witness :
    (handleRequest none (fun _ => none) true ["srv".data] (fun _ => none)
        "GET".data "/missing.html".data).1
      = { status := 404, contentType := htmlContentType
          cacheControl := none, pragma := none, expires := none
          contentLength := none
          body := notFoundBody (requestPath "/missing.html".data) } :=
  read_failure_gives_404 none (fun _ => none) true ["srv".data] (fun _ => none)
    "GET".data "/missing.html".data rfl

/-- C7: `getMimeType` returns the fixed table's entry whenever the
lowercased extension is one of its keys, and falls back to
`application/octet-stream` when neither the table nor the library lookup
knows the extension; it is a total function, so no input throws. -/
theorem getMimeType_table_then_fallback (lib : Str → Option Str) (p m : Str) :
    (customMimeTypes.lookup ((extname p).map Char.toLower) = some m →
      getMimeType lib p = m)
    ∧ (customMimeTypes.lookup ((extname p).map Char.toLower) = none →
      lib p = none → getMimeType lib p = octetStream) := by
  constructor
  · intro h
    simp [getMimeType, h]
  · intro h1 h2
    simp [getMimeType, h1, h2]

/-- Witness for C7: a known extension (`.CSS`, lowercased) hits the
table; an unknown one falls through to the generic type. -/
theorem getMimeType_table_then_fallback_witness :
    getMimeType (fun _ => none) "style.CSS".data = "text/css; charset=utf-8".data
    ∧ getMimeType (fun _ => none) "x.weird".data = octetStream :=
  ⟨(getMimeType_table_then_fallback (fun _ => none) "style.CSS".data
      "text/css; charset=utf-8".data).1 (by decide),
   (getMimeType_table_then_fallback (fun _ => none) "x.weird".data []).2
      (by decide) rfl⟩

/-- C5 (code evaluation): with `PORT` unset the push channel uses
3000 + 1 = 3001 as the claim states; but `process.env.PORT` is a string,
so with `PORT=8080` the expression `config.port + 1` is JavaScript
string concatenation and both the WebSocket server and the injected
script use "80801", not 8081. -/
theorem wsPort_string_concatenation :
    wsPort none = JsVal.num 3001
    ∧ wsPort (some "8080".data) = JsVal.str "80801".data
    ∧ wsPort (some "8080".data) ≠ JsVal.num 8081
    ∧ jsValToStr (wsPort (some "8080".data)) ≠ "8081".data
    ∧ liveReloadScript (some "8080".data)
        = lrPre ++ "80801".data ++ lrPost := by
  refine ⟨by decide, by decide, by decide, by decide, ?_⟩
  rfl

/-- C3: `broadcastReload` leaves the connection list untouched, performs
exactly one send of the token `"reload"` to each connection whose
`readyState` is 1 (in list order) and nothing else, and on an empty
connection list performs no sends at all (it is a total function, hence
no exception). -/
theorem broadcastReload_sends (conns : List WsConn) :
    (broadcastReload conns).1 = conns
    ∧ (broadcastReload conns).2
        = (conns.filter (fun c => c.readyState = 1)).map (fun c => (c.id, reloadToken))
    ∧ (∀ pr ∈ (broadcastReload conns).2, pr.2 = reloadToken)
    ∧ (conns = [] → (broadcastReload conns).2 = []) := by
  refine ⟨?_, ?_, ?_, ?_⟩
  · by_cases h : conns.length > 0 <;> simp [broadcastReload, h]
  · by_cases h : conns.length > 0
    · simp [broadcastReload, h]
    · have : conns = [] := by
        cases conns with
        | nil => rfl
        | cons a l => simp at h
      simp [broadcastReload, this]
  · intro pr hpr
    by_cases h : conns.length > 0
    · simp only [broadcastReload, if_pos h] at hpr
      obtain ⟨c, _, hc⟩ := List.mem_map.mp hpr
      simp [← hc]
    · simp [broadcastReload, h] at hpr
  · intro h
    simp [broadcastReload, h]

/-- Witness for C3: the empty connection set produces no sends. -/
theorem broadcastReload_sends_witness :
    (broadcastReload []).1 = ([] : List WsConn) ∧ (broadcastReload []).2 = [] :=
  ⟨(broadcastReload_sends []).1, (broadcastReload_sends []).2.2.2 rfl⟩

/-- Inner induction for C2: with the timer armed at `t0 + 100` and every
later event arriving before the pending deadline, the timer is cancelled
and re-armed each time and fires exactly once, 100 ms after the final
event. -/
theorem debounceRun_armed (events : List Nat) :
    ∀ t0 : Nat, List.Chain' (fun a b => a ≤ b ∧ b < a + debounceMs) (t0 :: events) →
      debounceRun (some (t0 + debounceMs)) events
        = [(t0 :: events).getLast (by simp) + debounceMs] := by
  induction events with
  | nil =>
    intro t0 _
    simp [debounceRun]
  | cons t rest ih =>
    intro t0 hchain
    rw [List.chain'_cons] at hchain
    have hlt : t < t0 + debounceMs := hchain.1.2
    have : ¬ t0 + debounceMs ≤ t := Nat.not_le.mpr hlt
    simp only [debounceRun, this, if_neg]
    rw [ih t hchain.2]
    simp [List.getLast_cons]

/-- C2: any nonempty burst of watcher events (add/change/unlink) in
which each event arrives within the 100 ms debounce window of the
previous one causes exactly one `broadcastReload`, fired 100 ms after
the burst's last event. -/
theorem debounce_coalesces_burst (events : List Nat) (h1 : events ≠ [])
    (h2 : List.Chain' (fun a b => a ≤ b ∧ b < a + debounceMs) events) :
    debounceRun none events = [events.getLast h1 + debounceMs] := by
  cases events with
  | nil => exact absurd rfl h1
  | cons t0 rest =>
    simp only [debounceRun]
    exact debounceRun_armed rest t0 h2

/-- Witness for C2: three rapid events at 5, 50 and 120 ms produce one
broadcast at 220 ms. -/
theorem debounce_coalesces_burst_witness :
    debounceRun none [5, 50, 120] = [220] :=
  (debounce_coalesces_burst [5, 50, 120] (by decide)
    (by simp [List.chain'_cons, debounceMs])).trans (by decide)

/-- C4: when the MIME type contains `text/html` and the push channel is
active, the 200 body is the file content with the live-reload script
inserted immediately before the closing body tag and the Content-Length
header is exactly the byte length of that modified body; for non-HTML
content or an inactive push channel the body is the content unchanged. -/
theorem html_gets_script_injected (envPort : Option Str) (lib : Str → Option Str)
    (ws : Bool) (p data : Str) :
    (occurs htmlToken (getMimeType lib p) = true → ws = true →
      occurs bodyTag data = true →
      ∃ pre post, data = pre ++ bodyTag ++ post
        ∧ (serveFile envPort lib ws p (some data)).body
            = pre ++ liveReloadScript envPort ++ (bodyTag ++ post)
        ∧ (serveFile envPort lib ws p (some data)).contentLength
            = some (byteLen ((serveFile envPort lib ws p (some data)).body))
        ∧ (serveFile envPort lib ws p (some data)).status = 200)
    ∧ ((occurs htmlToken (getMimeType lib p) = false ∨ ws = false) →
        (serveFile envPort lib ws p (some data)).body = data
        ∧ (serveFile envPort lib ws p (some data)).contentLength = none
        ∧ (serveFile envPort lib ws p (some data)).status = 200) := by
  constructor
  · intro hh hw hocc
    obtain ⟨pre, post, hdata, _, hrep⟩ :=
      jsReplace_first_occurrence bodyTag (liveReloadScript envPort ++ bodyTag) data hocc
    refine ⟨pre, post, hdata, ?_, ?_, ?_⟩
    · simp [serveFile, hh, hw, hrep, List.append_assoc]
    · simp [serveFile, hh, hw]
    · simp [serveFile, hh, hw]
  · intro h
    have hcond : ¬ (occurs htmlToken (getMimeType lib p) = true ∧ ws = true) := by
      rcases h with h | h <;> simp [h]
    refine ⟨?_, ?_, ?_⟩ <;> simp [serveFile, hcond]

/-- Witness for C4: a small HTML page gets the script before `</body>`
with a matching Content-Length, and a CSS file passes through
unchanged. -/
theorem html_gets_script_injected_witness :
    (∃ pre post, "<body>hi</body>".data = pre ++ bodyTag ++ post
      ∧ (serveFile none (fun _ => none) true "a.html".data
            (some "<body>hi</body>".data)).body
          = pre ++ liveReloadScript none ++ (bodyTag ++ post)
      ∧ (serveFile none (fun _ => none) true "a.html".data
            (some "<body>hi</body>".data)).contentLength
          = some (byteLen ((serveFile none (fun _ => none) true "a.html".data
              (some "<body>hi</body>".data)).body))
      ∧ (serveFile none (fun _ => none) true "a.html".data
            (some "<body>hi</body>".data)).status = 200)
    ∧ (serveFile none (fun _ => none) true "b.css".data
          (some "p: 1;".data)).body = "p: 1;".data :=
  ⟨(html_gets_script_injected none (fun _ => none) true "a.html".data
      "<body>hi</body>".data).1 (by decide) rfl (by decide),
   ((html_gets_script_injected none (fun _ => none) true "b.css".data
      "p: 1;".data).2 (Or.inl (by decide))).1⟩

/-- C10 counterexample: for HTML without any `</body>` substring the
body is indeed sent unmodified, but a Content-Length header IS set (the
injection branch runs on every HTML response while the push channel is
up, and `String.replace` just finds nothing), contradicting the claim
that no Content-Length header is set in that case. -/
theorem missing_bodytag_sets_content_length :
    occurs bodyTag "<p>x</p>".data = false
    ∧ occurs htmlToken (getMimeType (fun _ => none) "a.html".data) = true
    ∧ (serveFile none (fun _ => none) true "a.html".data
        (some "<p>x</p>".data)).body = "<p>x</p>".data
    ∧ (serveFile none (fun _ => none) true "a.html".data
        (some "<p>x</p>".data)).contentLength ≠ none := by
  refine ⟨by decide, by decide, by decide, by decide⟩

/-- C10 as amended: with the push channel active and HTML content, a
body with no `</body>` substring is sent byte-for-byte unmodified but
with Content-Length set to its byte length, and a body with one or more
occurrences has the script inserted before only the first occurrence. -/
theorem bodytag_edge_cases (envPort : Option Str) (lib : Str → Option Str)
    (p data : Str) (hh : occurs htmlToken (getMimeType lib p) = true) :
    (occurs bodyTag data = false →
      (serveFile envPort lib true p (some data)).body = data
      ∧ (serveFile envPort lib true p (some data)).contentLength
          = some (byteLen data))
    ∧ (occurs bodyTag data = true →
      ∃ pre post, data = pre ++ bodyTag ++ post
        ∧ (∀ i, i < pre.length → ¬ bodyTag <+: data.drop i)
        ∧ (serveFile envPort lib true p (some data)).body
            = pre ++ liveReloadScript envPort ++ (bodyTag ++ post)) := by
  constructor
  · intro hno
    have hunch := jsReplace_of_not_occurs bodyTag (liveReloadScript envPort ++ bodyTag) data hno
    constructor
    · simp [serveFile, hh, hunch]
    · simp [serveFile, hh, hunch]
  · intro hocc
    obtain ⟨pre, post, hdata, hmin, hrep⟩ :=
      jsReplace_first_occurrence bodyTag (liveReloadScript envPort ++ bodyTag) data hocc
    refine ⟨pre, post, hdata, hmin, ?_⟩
    simp [serveFile, hh, hrep, List.append_assoc]

/-- Witness for C10 (amended): a tag-free HTML body passes through with
its Content-Length set, and a double-tag body is rewritten at the first
tag only. -/
theorem bodytag_edge_cases_witness :
    ((serveFile none (fun _ => none) true "a.html".data
        (some "<p>x</p>".data)).body = "<p>x</p>".data
      ∧ (serveFile none (fun _ => none) true "a.html".data
          (some "<p>x</p>".data)).contentLength = some (byteLen "<p>x</p>".data))
    ∧ ∃ pre post, "</body></body>".data = pre ++ bodyTag ++ post
        ∧ (∀ i, i < pre.length → ¬ bodyTag <+: "</body></body>".data.drop i)
        ∧ (serveFile none (fun _ => none) true "a.html".data
            (some "</body></body>".data)).body
            = pre ++ liveReloadScript none ++ (bodyTag ++ post) :=
  ⟨(bodytag_edge_cases none (fun _ => none) "a.html".data "<p>x</p>".data
      (by decide)).1 (by decide),
   (bodytag_edge_cases none (fun _ => none) "a.html".data "</body></body>".data
      (by decide)).2 (by decide)⟩

/-! ## Lemmas about `splitSeg` and `icSlash` -/

theorem splitSeg_ne_nil : ∀ s : Str, splitSeg s ≠ [] := by
  intro s
  induction s with
  | nil => simp [splitSeg]
  | cons c rest ih =>
    by_cases h : c = '/'
    · simp [splitSeg, h]
    · simp only [splitSeg, if_neg h]
      cases hs : splitSeg rest with
      | nil => simp
      | cons x xs => simp

theorem splitSeg_cons_slash (s : Str) : splitSeg ('/' :: s) = [] :: splitSeg s := by
  simp [splitSeg]

theorem splitSeg_cons_of_ne (c : Char) (s : Str) (h : c ≠ '/') :
    ∃ x xs, splitSeg s = x :: xs ∧ splitSeg (c :: s) = (c :: x) :: xs := by
  cases hs : splitSeg s with
  | nil => exact absurd hs (splitSeg_ne_nil s)
  | cons x xs =>
    refine ⟨x, xs, rfl, ?_⟩
    simp [splitSeg, h, hs]

theorem splitSeg_append_slash : ∀ a b : Str, splitSeg (a ++ '/' :: b) = splitSeg a ++ splitSeg b := by
  intro a b
  induction a with
  | nil => simp [splitSeg_cons_slash, splitSeg]
  | cons c rest ih =>
    by_cases h : c = '/'
    · subst h
      show splitSeg ('/' :: (rest ++ '/' :: b)) = splitSeg ('/' :: rest) ++ splitSeg b
      rw [splitSeg_cons_slash, splitSeg_cons_slash, ih]
      rfl
    · obtain ⟨x, xs, hx, hcx⟩ := splitSeg_cons_of_ne c (rest ++ '/' :: b) h
      obtain ⟨y, ys, hy, hcy⟩ := splitSeg_cons_of_ne c rest h
      have hxy : x :: xs = y :: (ys ++ splitSeg b) := by
        rw [← hx, ih, hy, List.cons_append]
      injection hxy with h1 h2
      subst h1
      subst h2
      show splitSeg (c :: (rest ++ '/' :: b)) = splitSeg (c :: rest) ++ splitSeg b
      rw [hcx, hcy, List.cons_append]

theorem mem_splitSeg_no_slash : ∀ s : Str, ∀ x ∈ splitSeg s, '/' ∉ x := by
  intro s
  induction s with
  | nil =>
    intro x hx
    simp [splitSeg] at hx
    simp [hx]
  | cons c rest ih =>
    by_cases h : c = '/'
    · subst h
      intro x hx
      rw [splitSeg_cons_slash] at hx
      rcases List.mem_cons.mp hx with h1 | h1
      · simp [h1]
      · exact ih x h1
    · obtain ⟨y, ys, hy, hcy⟩ := splitSeg_cons_of_ne c rest h
      intro x hx
      rw [hcy] at hx
      rcases List.mem_cons.mp hx with h1 | h1
      · subst h1
        intro hmem
        rcases List.mem_cons.mp hmem with h2 | h2
        · exact h h2.symm
        · exact ih y (hy ▸ List.mem_cons_self y ys) h2
      · exact ih x (hy ▸ List.mem_cons_of_mem y h1)

theorem icSlash_splitSeg : ∀ s : Str, icSlash (splitSeg s) = s := by
  intro s
  induction s with
  | nil => simp [splitSeg, icSlash]
  | cons c rest ih =>
    by_cases h : c = '/'
    · subst h
      rw [splitSeg_cons_slash]
      cases hs : splitSeg rest with
      | nil => exact absurd hs (splitSeg_ne_nil rest)
      | cons x xs =>
        rw [hs] at ih
        simp [icSlash, ih]
    · obtain ⟨x, xs, hx, hcx⟩ := splitSeg_cons_of_ne c rest h
      rw [hcx]
      rw [hx] at ih
      cases xs with
      | nil => simpa [icSlash] using congrArg (c :: ·) ih
      | cons z zs =>
        simp only [icSlash] at ih ⊢
        simpa using congrArg (c :: ·) ih

theorem splitSeg_no_slash : ∀ x : Str, '/' ∉ x → splitSeg x = [x] := by
  intro x
  induction x with
  | nil => intro _; simp [splitSeg]
  | cons c rest ih =>
    intro h
    have hc : c ≠ '/' := fun hcc => h (hcc ▸ List.mem_cons_self c rest)
    have hrest : '/' ∉ rest := fun hr => h (List.mem_cons_of_mem c hr)
    obtain ⟨y, ys, hy, hcy⟩ := splitSeg_cons_of_ne c rest hc
    rw [ih hrest] at hy
    cases hy
    rw [hcy]

theorem splitSeg_icSlash : ∀ L : List Str, L ≠ [] → (∀ x ∈ L, '/' ∉ x) →
    splitSeg (icSlash L) = L := by
  intro L
  induction L with
  | nil => intro h; exact absurd rfl h
  | cons x xs ih =>
    intro _ hfree
    cases xs with
    | nil =>
      simp only [icSlash]
      exact splitSeg_no_slash x (hfree x (List.mem_cons_self x []))
    | cons y ys =>
      have : icSlash (x :: y :: ys) = x ++ '/' :: icSlash (y :: ys) := rfl
      rw [this, splitSeg_append_slash,
        splitSeg_no_slash x (hfree x (List.mem_cons_self x (y :: ys))),
        ih (by simp) (fun z hz => hfree z (List.mem_cons_of_mem x hz))]
      rfl

theorem icSlash_ne_nil (L : List Str) (x : Str) (xs : List Str) (hL : L = x :: xs)
    (hx : x ≠ []) : icSlash L ≠ [] := by
  subst hL
  cases xs with
  | nil => simpa [icSlash] using hx
  | cons y ys =>
    simp only [icSlash]
    cases x with
    | nil => exact absurd rfl hx
    | cons c cs => simp

/-! ## Lemmas about `normAcc` -/

theorem normAcc_append (ab : Bool) : ∀ (xs ys : List Str) (acc : List Str),
    normAcc ab acc (xs ++ ys) = normAcc ab (normAcc ab acc xs) ys := by
  intro xs
  induction xs with
  | nil => intro ys acc; rfl
  | cons s rest ih =>
    intro ys acc
    by_cases h1 : s = [] ∨ s = ['.']
    · simp only [List.cons_append, normAcc, if_pos h1]
      exact ih ys acc
    · by_cases h2 : s = dd
      · cases acc with
        | nil =>
          simp only [List.cons_append, normAcc, if_neg h1, if_pos h2]
          exact ih ys _
        | cons t ts =>
          by_cases h3 : t = dd
          · simp only [List.cons_append, normAcc, if_neg h1, if_pos h2, if_pos h3]
            exact ih ys _
          · simp only [List.cons_append, normAcc, if_neg h1, if_pos h2, if_neg h3]
            exact ih ys _
      · simp only [List.cons_append, normAcc, if_neg h1, if_neg h2]
        exact ih ys _

theorem normAcc_skip_empty (ab : Bool) (acc : List Str) (rest : List Str) :
    normAcc ab acc ([] :: rest) = normAcc ab acc rest := by
  simp [normAcc]

theorem normAcc_no_dd_extends (ab : Bool) : ∀ (segs : List Str) (acc : List Str),
    noDD segs → ∃ E, normAcc ab acc segs = E ++ acc ∧ ∀ e ∈ E, e ∈ segs := by
  intro segs
  induction segs with
  | nil => intro acc _; exact ⟨[], rfl, by simp⟩
  | cons s rest ih =>
    intro acc hnd
    have hrest : noDD rest := fun m hm => hnd m (List.mem_cons_of_mem s hm)
    by_cases h1 : s = [] ∨ s = ['.']
    · obtain ⟨E, hE, hmem⟩ := ih acc hrest
      refine ⟨E, ?_, fun e he => List.mem_cons_of_mem s (hmem e he)⟩
      simp only [normAcc, if_pos h1]
      exact hE
    · have h2 : s ≠ dd := hnd s (List.mem_cons_self s rest)
      obtain ⟨E, hE, hmem⟩ := ih (s :: acc) hrest
      refine ⟨E ++ [s], ?_, ?_⟩
      · simp only [normAcc, if_neg h1, if_neg h2]
        rw [hE, List.append_assoc]
        rfl
      · intro e he
        rcases List.mem_append.mp he with h | h
        · exact List.mem_cons_of_mem s (hmem e h)
        · simp at h
          simp [h]

theorem normAcc_plain_push (ab : Bool) : ∀ (C : List Str) (acc : List Str),
    (∀ c ∈ C, c ≠ [] ∧ c ≠ ['.'] ∧ c ≠ dd) →
    normAcc ab acc C = C.reverse ++ acc := by
  intro C
  induction C with
  | nil => intro acc _; rfl
  | cons s rest ih =>
    intro acc hC
    obtain ⟨h1, h2, h3⟩ := hC s (List.mem_cons_self s rest)
    have h12 : ¬ (s = [] ∨ s = ['.']) := by
      rintro (h | h)
      · exact h1 h
      · exact h2 h
    simp only [normAcc, if_neg h12, if_neg h3]
    rw [ih (s :: acc) (fun c hc => hC c (List.mem_cons_of_mem s hc))]
    simp

theorem normAcc_false_mem : ∀ (segs : List Str) (R : List Str),
    (∀ c ∈ R, plainSeg c) → (∀ s ∈ segs, '/' ∉ s) →
    ∀ c ∈ normAcc false R segs, plainSeg c := by
  intro segs
  induction segs with
  | nil => intro R hR _; exact hR
  | cons s rest ih =>
    intro R hR hfree
    have hfree' : ∀ x ∈ rest, '/' ∉ x := fun x hx => hfree x (List.mem_cons_of_mem s hx)
    by_cases h1 : s = [] ∨ s = ['.']
    · simpa only [normAcc, if_pos h1] using ih R hR hfree'
    · by_cases h2 : s = dd
      · cases R with
        | nil =>
          simp only [normAcc, if_neg h1, if_pos h2]
          exact ih [] (by simp) hfree'
        | cons t ts =>
          have h3 : t ≠ dd := (hR t (List.mem_cons_self t ts)).2.2.1
          simp only [normAcc, if_neg h1, if_pos h2, if_neg h3]
          exact ih ts (fun c hc => hR c (List.mem_cons_of_mem t hc)) hfree'
      · simp only [normAcc, if_neg h1, if_neg h2]
        refine ih (s :: R) ?_ hfree'
        intro c hc
        rcases List.mem_cons.mp hc with h | h
        · subst h
          refine ⟨?_, ?_, h2, hfree c (List.mem_cons_self c rest)⟩
          · intro hc'
            exact h1 (Or.inl hc')
          · intro hc'
            exact h1 (Or.inr hc')
        · exact hR c h

theorem dd_not_skippable : ¬ (dd = [] ∨ dd = ['.']) := by decide

theorem normAcc_step_skip (ab : Bool) (s : Str) (acc rest : List Str)
    (h1 : s = [] ∨ s = ['.']) :
    normAcc ab acc (s :: rest) = normAcc ab acc rest := by
  simp only [normAcc, if_pos h1]

theorem normAcc_step_push (ab : Bool) (s : Str) (acc rest : List Str)
    (h1 : ¬ (s = [] ∨ s = ['.'])) (h2 : s ≠ dd) :
    normAcc ab acc (s :: rest) = normAcc ab (s :: acc) rest := by
  simp only [normAcc, if_neg h1, if_neg h2]

theorem normAcc_step_dd_nil (ab : Bool) (rest : List Str) :
    normAcc ab [] (dd :: rest) = normAcc ab (if ab then [dd] else []) rest := by
  simp only [normAcc, if_neg dd_not_skippable, if_pos rfl]
  simp

theorem normAcc_step_dd_pop (ab : Bool) (t : Str) (ts rest : List Str) (h : t ≠ dd) :
    normAcc ab (t :: ts) (dd :: rest) = normAcc ab ts rest := by
  simp only [normAcc, if_neg dd_not_skippable, if_pos rfl, if_neg h]
  simp

theorem normAcc_step_dd_keep (ab : Bool) (ts rest : List Str) :
    normAcc ab (dd :: ts) (dd :: rest)
      = normAcc ab (if ab then dd :: dd :: ts else dd :: ts) rest := by
  simp only [normAcc, if_neg dd_not_skippable, if_pos rfl]
  simp

theorem normAcc_true_shape : ∀ (segs : List Str) (R : List Str) (k : Nat),
    (∀ c ∈ R, plainSeg c) → (∀ s ∈ segs, '/' ∉ s) →
    ∃ R' k', normAcc true (R ++ List.replicate k dd) segs
        = R' ++ List.replicate k' dd ∧ ∀ c ∈ R', plainSeg c := by
  intro segs
  induction segs with
  | nil => intro R k hR _; exact ⟨R, k, rfl, hR⟩
  | cons s rest ih =>
    intro R k hR hfree
    have hfree' : ∀ x ∈ rest, '/' ∉ x := fun x hx => hfree x (List.mem_cons_of_mem s hx)
    by_cases h1 : s = [] ∨ s = ['.']
    · rw [normAcc_step_skip true s _ rest h1]
      exact ih R k hR hfree'
    · by_cases h2 : s = dd
      · subst h2
        cases R with
        | nil =>
          cases k with
          | zero =>
            rw [List.nil_append, List.replicate, normAcc_step_dd_nil, if_pos rfl]
            have := ih [] 1 (by simp) hfree'
            simpa using this
          | succ k0 =>
            rw [List.nil_append, List.replicate, normAcc_step_dd_keep, if_pos rfl]
            have := ih [] (k0 + 2) (by simp) hfree'
            simpa [List.replicate] using this
        | cons t ts =>
          have h3 : t ≠ dd := (hR t (List.mem_cons_self t ts)).2.2.1
          rw [List.cons_append, normAcc_step_dd_pop true t _ rest h3]
          exact ih ts k (fun c hc => hR c (List.mem_cons_of_mem t hc)) hfree'
      · rw [normAcc_step_push true s _ rest h1 h2]
        have hplain : plainSeg s := by
          refine ⟨?_, ?_, h2, hfree s (List.mem_cons_self s rest)⟩
          · intro hc'
            exact h1 (Or.inl hc')
          · intro hc'
            exact h1 (Or.inr hc')
        have hsR : ∀ c ∈ s :: R, plainSeg c := by
          intro c hc
          rcases List.mem_cons.mp hc with h | h
          · exact h ▸ hplain
          · exact hR c h
        exact ih (s :: R) k hsR hfree'

/-! ## Shape of `posixNormalize` output -/

theorem posixNormalize_abs (p : Str) (hp : p ≠ []) (habs : p.head? = some '/') :
    posixNormalize p
      = '/' :: (if icSlash (dirOf p) ≠ [] ∧ p.getLast? = some '/'
                then icSlash (dirOf p) ++ ['/'] else icSlash (dirOf p)) := by
  unfold posixNormalize dirOf
  rw [if_neg hp, if_pos habs]

theorem posixNormalize_rel (p : Str) (hp : p ≠ []) (habs : ¬ p.head? = some '/') :
    posixNormalize p
      = (if (if icSlash ((normAcc true [] (splitSeg p)).reverse) = []
             then ['.']
             else icSlash ((normAcc true [] (splitSeg p)).reverse)) ≠ []
            ∧ p.getLast? = some '/'
         then (if icSlash ((normAcc true [] (splitSeg p)).reverse) = []
               then ['.']
               else icSlash ((normAcc true [] (splitSeg p)).reverse)) ++ ['/']
         else (if icSlash ((normAcc true [] (splitSeg p)).reverse) = []
               then ['.']
               else icSlash ((normAcc true [] (splitSeg p)).reverse))) := by
  unfold posixNormalize
  rw [if_neg hp, if_neg habs]

theorem dirOf_plain (p : Str) : ∀ c ∈ dirOf p, plainSeg c := by
  intro c hc
  rw [dirOf, List.mem_reverse] at hc
  exact normAcc_false_mem (splitSeg p) [] (by simp) (mem_splitSeg_no_slash p) c hc

theorem splitSeg_normalize_shape (p : Str) :
    ∃ k M, splitSeg (posixNormalize p) = List.replicate k dd ++ M
      ∧ noDD M ∧ (noDD (splitSeg p) → k = 0) := by
  by_cases hp : p = []
  · subst hp
    refine ⟨0, [['.']], by decide, by decide, fun _ => rfl⟩
  by_cases habs : p.head? = some '/'
  · -- absolute: no `..` survives at all
    rw [posixNormalize_abs p hp habs]
    have hplain := dirOf_plain p
    by_cases hDnil : dirOf p = []
    · rw [hDnil]
      simp only [icSlash]
      rw [if_neg (by rintro ⟨h, _⟩; exact h rfl)]
      exact ⟨0, [[], []], by decide, by decide, fun _ => rfl⟩
    · obtain ⟨x, xs, hD⟩ := List.exists_cons_of_ne_nil hDnil
      have hx : x ≠ [] := ((hD ▸ hplain) x (List.mem_cons_self x xs)).1
      have hcore : icSlash (dirOf p) ≠ [] := icSlash_ne_nil (dirOf p) x xs hD hx
      have hfree : ∀ z ∈ dirOf p, '/' ∉ z := fun z hz => (hplain z hz).2.2.2
      have hsplit : splitSeg (icSlash (dirOf p)) = dirOf p :=
        splitSeg_icSlash (dirOf p) (by rw [hD]; simp) hfree
      have hnd : ∀ m ∈ dirOf p, m ≠ dd := fun m hm => (hplain m hm).2.2.1
      by_cases htr : p.getLast? = some '/'
      · rw [if_pos ⟨hcore, htr⟩]
        refine ⟨0, [] :: (dirOf p ++ [[]]), ?_, ?_, fun _ => rfl⟩
        · have : icSlash (dirOf p) ++ ['/'] = icSlash (dirOf p) ++ '/' :: [] := rfl
          rw [splitSeg_cons_slash, this, splitSeg_append_slash, hsplit]
          rfl
        · intro m hm
          rcases List.mem_cons.mp hm with h | h
          · simp [h, dd]
          · rcases List.mem_append.mp h with h | h
            · exact hnd m h
            · simp at h
              simp [h, dd]
      · rw [if_neg (by rintro ⟨_, h⟩; exact htr h)]
        refine ⟨0, [] :: dirOf p, ?_, ?_, fun _ => rfl⟩
        · rw [splitSeg_cons_slash, hsplit]
          rfl
        · intro m hm
          rcases List.mem_cons.mp hm with h | h
          · simp [h, dd]
          · exact hnd m h
  · -- relative
    rw [posixNormalize_rel p hp habs]
    obtain ⟨R', k', hA, hR'⟩ :=
      normAcc_true_shape (splitSeg p) [] 0 (by simp) (mem_splitSeg_no_slash p)
    simp only [List.replicate_zero, List.append_nil, List.nil_append] at hA
    have hk0 : noDD (splitSeg p) → k' = 0 := by
      intro hnd
      by_contra hk
      obtain ⟨E, hE, hmem⟩ := normAcc_no_dd_extends true (splitSeg p) [] hnd
      rw [List.append_nil] at hE
      have : dd ∈ normAcc true [] (splitSeg p) := by
        rw [hA]
        exact List.mem_append_right R' (List.mem_replicate.mpr ⟨hk, rfl⟩)
      rw [hE] at this
      exact hnd dd (hmem dd this) rfl
    have hC : icSlash ((normAcc true [] (splitSeg p)).reverse)
        = icSlash (List.replicate k' dd ++ R'.reverse) := by
      rw [hA, List.reverse_append, List.reverse_replicate]
    rw [hC]
    by_cases hL0 : List.replicate k' dd ++ R'.reverse = []
    · rw [hL0]
      simp only [icSlash, if_pos rfl]
      by_cases htr : p.getLast? = some '/'
      · rw [if_pos ⟨by simp, htr⟩]
        exact ⟨0, [['.'], []], by decide, by decide, fun _ => rfl⟩
      · rw [if_neg (by rintro ⟨_, h⟩; exact htr h)]
        exact ⟨0, [['.']], by decide, by decide, fun _ => rfl⟩
    · obtain ⟨x, xs, hL2⟩ := List.exists_cons_of_ne_nil hL0
      have hx : x ≠ [] := by
        cases k' with
        | zero =>
          have hxr : x ∈ R'.reverse := by
            have : R'.reverse = x :: xs := by simpa using hL2
            rw [this]
            exact List.mem_cons_self x xs
          exact (hR' x (List.mem_reverse.mp hxr)).1
        | succ n =>
          have hxdd : x = dd := by
            have := congrArg List.head? hL2
            simpa [List.replicate] using this.symm
          rw [hxdd]
          decide
      have hfree2 : ∀ z ∈ List.replicate k' dd ++ R'.reverse, '/' ∉ z := by
        intro z hz
        rcases List.mem_append.mp hz with h | h
        · rw [List.eq_of_mem_replicate h]
          decide
        · exact (hR' z (List.mem_reverse.mp h)).2.2.2
      have hCne : icSlash (List.replicate k' dd ++ R'.reverse) ≠ [] :=
        icSlash_ne_nil _ x xs hL2 hx
      have hsplitC : splitSeg (icSlash (List.replicate k' dd ++ R'.reverse))
          = List.replicate k' dd ++ R'.reverse :=
        splitSeg_icSlash _ (by rw [hL2]; simp) hfree2
      rw [if_neg hCne]
      by_cases htr : p.getLast? = some '/'
      · rw [if_pos ⟨hCne, htr⟩]
        refine ⟨k', R'.reverse ++ [[]], ?_, ?_, hk0⟩
        · have harr : icSlash (List.replicate k' dd ++ R'.reverse) ++ ['/']
              = icSlash (List.replicate k' dd ++ R'.reverse) ++ '/' :: [] := rfl
          rw [harr, splitSeg_append_slash, hsplitC]
          simp [List.append_assoc, splitSeg]
        · intro m hm
          rcases List.mem_append.mp hm with h | h
          · exact (hR' m (List.mem_reverse.mp h)).2.2.1
          · simp at h
            rw [h]
            decide
      · rw [if_neg (by rintro ⟨_, h⟩; exact htr h)]
        exact ⟨k', R'.reverse, hsplitC,
          fun m hm => (hR' m (List.mem_reverse.mp hm)).2.2.1, hk0⟩

/-! ## Shape of `stripDots` output -/

theorem splitSeg_dd_slash (rest : Str) :
    splitSeg ('.' :: '.' :: '/' :: rest) = dd :: splitSeg rest := by
  obtain ⟨y2, ys2, hy2, h2⟩ := splitSeg_cons_of_ne '.' ('/' :: rest) (by decide)
  obtain ⟨y1, ys1, hy1, h1⟩ := splitSeg_cons_of_ne '.' ('.' :: '/' :: rest) (by decide)
  rw [splitSeg_cons_slash] at hy2
  injection hy2 with e1 e2
  rw [h2] at hy1
  injection hy1 with f1 f2
  rw [h1, ← f1, ← f2, ← e1, ← e2]
  rfl

theorem splitSeg_dd_backslash (rest : Str) :
    ∃ y ys, splitSeg rest = y :: ys
      ∧ splitSeg ('.' :: '.' :: '\\' :: rest) = ('.' :: '.' :: '\\' :: y) :: ys := by
  obtain ⟨y, ys, hy, h3⟩ := splitSeg_cons_of_ne '\\' rest (by decide)
  obtain ⟨y2, ys2, hy2, h2⟩ := splitSeg_cons_of_ne '.' ('\\' :: rest) (by decide)
  obtain ⟨y1, ys1, hy1, h1⟩ := splitSeg_cons_of_ne '.' ('.' :: '\\' :: rest) (by decide)
  rw [h3] at hy2
  injection hy2 with e1 e2
  rw [h2] at hy1
  injection hy1 with f1 f2
  refine ⟨y, ys, hy, ?_⟩
  rw [h1, ← f1, ← f2, ← e1, ← e2]

theorem stripDots_shape : ∀ s : Str,
    (∃ k M, splitSeg s = List.replicate k dd ++ M ∧ noDD M) →
    (stripDots s = dd ∨ noDD (splitSeg (stripDots s))) := by
  intro s
  induction s using stripDots.induct with
  | case1 c1 c2 c3 rest h ih =>
    obtain ⟨h1, h2, h3⟩ := h
    subst h1
    subst h2
    intro hsh
    rw [stripDots, if_pos ⟨rfl, rfl, h3⟩]
    rcases h3 with h3 | h3
    · subst h3
      apply ih
      obtain ⟨k, M, hsp, hM⟩ := hsh
      rw [splitSeg_dd_slash] at hsp
      cases k with
      | zero =>
        exfalso
        have : dd ∈ M := by
          rw [List.replicate_zero, List.nil_append] at hsp
          rw [← hsp]
          exact List.mem_cons_self dd (splitSeg rest)
        exact hM dd this rfl
      | succ k0 =>
        rw [List.replicate_succ, List.cons_append] at hsp
        injection hsp with _ e2
        exact ⟨k0, M, e2, hM⟩
    · subst h3
      apply ih
      obtain ⟨k, M, hsp, hM⟩ := hsh
      obtain ⟨y, ys, hy, hbs⟩ := splitSeg_dd_backslash rest
      rw [hbs] at hsp
      have hk : k = 0 := by
        cases k with
        | zero => rfl
        | succ k0 =>
          exfalso
          rw [List.replicate_succ, List.cons_append] at hsp
          injection hsp with e1 _
          exact absurd e1 (by simp [dd])
      subst hk
      rw [List.replicate_zero, List.nil_append] at hsp
      by_cases hydd : y = dd
      · refine ⟨1, ys, ?_, ?_⟩
        · rw [hy, hydd]
          rfl
        · intro m hm
          apply hM m
          rw [← hsp]
          exact List.mem_cons_of_mem _ hm
      · refine ⟨0, y :: ys, by rw [hy]; rfl, ?_⟩
        intro m hm
        rcases List.mem_cons.mp hm with hmy | hmt
        · rw [hmy]
          exact hydd
        · apply hM m
          rw [← hsp]
          exact List.mem_cons_of_mem _ hmt
  | case2 c1 c2 c3 rest h =>
    intro hsh
    rw [stripDots, if_neg h]
    obtain ⟨k, M, hsp, hM⟩ := hsh
    cases k with
    | zero =>
      right
      rw [List.replicate_zero, List.nil_append] at hsp
      rw [hsp]
      exact hM
    | succ k0 =>
      exfalso
      have hs : c1 :: c2 :: c3 :: rest = icSlash (splitSeg (c1 :: c2 :: c3 :: rest)) :=
        (icSlash_splitSeg _).symm
      rw [hsp, List.replicate_succ, List.cons_append] at hs
      cases hT : List.replicate k0 dd ++ M with
      | nil =>
        rw [hT] at hs
        simp only [icSlash, dd] at hs
        injection hs with _ e2
        injection e2 with _ e3
        exact absurd e3 (by simp)
      | cons t ts =>
        rw [hT] at hs
        simp only [icSlash, dd, List.cons_append, List.nil_append] at hs
        injection hs with e1 e2
        injection e2 with e2a e2b
        injection e2b with e3 _
        exact h ⟨e1, e2a, Or.inl e3⟩
  | case3 s h =>
    intro hsh
    have hstrip : stripDots s = s := by
      cases s with
      | nil => rfl
      | cons a t =>
        cases t with
        | nil => rfl
        | cons b u =>
          cases u with
          | nil => rfl
          | cons c v => exact absurd rfl (h a b c v)
    rw [hstrip]
    obtain ⟨k, M, hsp, hM⟩ := hsh
    cases k with
    | zero =>
      right
      rw [List.replicate_zero, List.nil_append] at hsp
      rw [hsp]
      exact hM
    | succ k0 =>
      have hs : s = icSlash (splitSeg s) := (icSlash_splitSeg _).symm
      rw [hsp, List.replicate_succ, List.cons_append] at hs
      cases hT : List.replicate k0 dd ++ M with
      | nil =>
        rw [hT] at hs
        left
        rw [hs]
        rfl
      | cons t ts =>
        exfalso
        rw [hT] at hs
        simp only [icSlash, dd, List.cons_append, List.nil_append] at hs
        exact absurd rfl (hs ▸ h '.' '.' '/' (icSlash (t :: ts)))

/-! ## The sanitized request path has no surviving `..` except the bare one -/

theorem noDD_tail_strip (j : Str) (hnd : noDD (splitSeg j)) :
    noDD (splitSeg (if j.head? = some '/' then j.tail else j)) := by
  by_cases hh : j.head? = some '/'
  · rw [if_pos hh]
    cases j with
    | nil => simp at hh
    | cons c t =>
      have hc : c = '/' := by simpa using hh
      subst hc
      rw [splitSeg_cons_slash] at hnd
      intro m hm
      exact hnd m (List.mem_cons_of_mem [] hm)
  · rw [if_neg hh]
    exact hnd

theorem requestPath_shape (u : Str) :
    requestPath u = dd ∨ noDD (splitSeg (requestPath u)) := by
  have hgood : stripDots (posixNormalize (stripQuery u)) = dd
      ∨ noDD (splitSeg (stripDots (posixNormalize (stripQuery u)))) := by
    apply stripDots_shape
    obtain ⟨k, M, hsp, hM, _⟩ := splitSeg_normalize_shape (stripQuery u)
    exact ⟨k, M, hsp, hM⟩
  rcases hgood with hdd | hnd
  · left
    simp only [requestPath, hdd]
    rw [if_neg (by decide)]
    rw [if_neg (by decide)]
  · right
    simp only [requestPath]
    by_cases hj : stripDots (posixNormalize (stripQuery u)) = ['/']
        ∨ (stripDots (posixNormalize (stripQuery u))).getLast? = some '/'
    · rw [if_pos hj]
      apply noDD_tail_strip
      have hne : stripDots (posixNormalize (stripQuery u)) ≠ [] := by
        rcases hj with h | h
        · rw [h]
          simp
        · intro hnil
          rw [hnil] at h
          simp at h
      have hjoin : posixJoin (stripDots (posixNormalize (stripQuery u))) indexHtml
          = posixNormalize (stripDots (posixNormalize (stripQuery u)) ++ '/' :: indexHtml) := by
        rw [posixJoin, if_neg (by rintro ⟨h, _⟩; exact hne h), if_neg hne,
          if_neg (by decide)]
      rw [hjoin]
      obtain ⟨k, M, hsp, hM, hk0⟩ :=
        splitSeg_normalize_shape
          (stripDots (posixNormalize (stripQuery u)) ++ '/' :: indexHtml)
      have hknil : k = 0 := by
        apply hk0
        rw [splitSeg_append_slash]
        intro m hm
        rcases List.mem_append.mp hm with h | h
        · exact hnd m h
        · have : splitSeg indexHtml = [indexHtml] := by decide
          rw [this] at h
          simp at h
          rw [h]
          decide
      rw [hsp, hknil, List.replicate_zero, List.nil_append]
      exact hM
    · rw [if_neg hj]
      exact noDD_tail_strip _ hnd

theorem resolveUnder_noDD_prefix (root : List Str) (rel : Str)
    (h : noDD (splitSeg rel)) : root <+: resolveUnder root rel := by
  obtain ⟨E, hE, _⟩ := normAcc_no_dd_extends false (splitSeg rel) root.reverse h
  rw [resolveUnder, hE, List.reverse_append, List.reverse_reverse]
  exact List.prefix_append root E.reverse

theorem resolveUnder_dd_parent (root : List Str) (hroot : ∀ r ∈ root, r ≠ dd) :
    resolveUnder root dd = root.dropLast := by
  have hsp : splitSeg dd = [dd] := by decide
  rw [resolveUnder, hsp]
  induction root using List.reverseRecOn with
  | nil => decide
  | append_singleton l a _ =>
    have ha : a ≠ dd := hroot a (by simp)
    rw [List.reverse_append]
    simp only [List.reverse_cons, List.reverse_nil, List.nil_append, List.singleton_append]
    rw [normAcc_step_dd_pop false a l.reverse [] ha]
    show (normAcc false l.reverse []).reverse = (l ++ [a]).dropLast
    simp [normAcc, List.dropLast_concat]

/-- C1 counterexample: the request target `http://a/../../..` (a legal
absolute-form target whose path contains `..` segments) sanitizes to the
bare segment `..`, and joining it to the static root resolves to the
root's parent directory — outside the static root. -/
theorem dotdot_url_escapes_root :
    dd ∈ splitSeg (stripQuery "http://a/../../..".data)
    ∧ requestPath "http://a/../../..".data = dd
    ∧ resolveUnder ["home".data, "app".data, "src".data]
        (requestPath "http://a/../../..".data) = ["home".data, "app".data]
    ∧ ¬ ["home".data, "app".data, "src".data] <+:
        resolveUnder ["home".data, "app".data, "src".data]
          (requestPath "http://a/../../..".data) := by
  refine ⟨by decide, by decide, by decide, by decide⟩

/-- C1 as amended: for every raw request URL (in particular every one
whose path contains `..` segments), the sanitized path either resolves
inside the static root (the root's segments are a prefix of the resolved
segments), or is exactly the bare segment `..`, which resolves to the
immediate parent directory of the static root — never deeper — and,
being a directory, fails the subsequent file read with a 404. -/
theorem traversal_confined (root : List Str) (u : Str)
    (hroot : ∀ r ∈ root, plainSeg r) :
    (requestPath u = dd ∧ resolveUnder root (requestPath u) = root.dropLast)
    ∨ root <+: resolveUnder root (requestPath u) := by
  rcases requestPath_shape u with h | h
  · left
    refine ⟨h, ?_⟩
    rw [h]
    exact resolveUnder_dd_parent root (fun r hr => (hroot r hr).2.2.1)
  · right
    exact resolveUnder_noDD_prefix root _ h

/-- Witness for C1 (amended): a traversal attempt that stays and one
that collapses to the root's parent. -/
theorem traversal_confined_witness :
    ((requestPath "/a/../../etc/passwd".data = dd
        ∧ resolveUnder ["home".data, "srv".data] (requestPath "/a/../../etc/passwd".data)
            = ["home".data])
      ∨ ["home".data, "srv".data] <+:
          resolveUnder ["home".data, "srv".data] (requestPath "/a/../../etc/passwd".data)) :=
  traversal_confined ["home".data, "srv".data] "/a/../../etc/passwd".data (by decide)

/-! ## Directory requests and the index document (C8) -/

theorem stripDots_slash_head (t : Str) : stripDots ('/' :: t) = '/' :: t := by
  cases t with
  | nil => rfl
  | cons b u =>
    cases u with
    | nil => rfl
    | cons c v =>
      rw [stripDots, if_neg]
      rintro ⟨h, _, _⟩
      exact absurd h (by decide)

/-- C8 counterexample: the directory-like request target
`http://a/../../../` ends in a slash but its sanitized path is empty, so
it is served as the static root directory itself (which fails the read),
not as any `index.html`. -/
theorem trailing_slash_without_index :
    (stripQuery "http://a/../../../".data).getLast? = some '/'
    ∧ requestPath "http://a/../../../".data = []
    ∧ ¬ indexHtml <:+ requestPath "http://a/../../../".data
    ∧ resolveUnder ["srv".data] (requestPath "http://a/../../../".data) = ["srv".data] := by
  refine ⟨by decide, by decide, by decide, by decide⟩

/-- C8 as amended: every request path that begins with `/` (an
origin-form target) and is `/` or ends in `/` resolves to the index
document `index.html` inside the directory that path denotes under the
static root; only pathological non-origin-form targets whose sanitized
path is empty escape this rule (they resolve to the root directory
itself and produce a 404). -/
theorem directory_request_resolves_index (root : List Str) (u : Str)
    (habs : (stripQuery u).head? = some '/')
    (hslash : (stripQuery u).getLast? = some '/') :
    resolveUnder root (requestPath u) = root ++ dirOf (stripQuery u) ++ [indexHtml] := by
  have hq : stripQuery u ≠ [] := by
    intro h
    rw [h] at habs
    simp at habs
  have hplain := dirOf_plain (stripQuery u)
  have hnorm := posixNormalize_abs (stripQuery u) hq habs
  by_cases hD : dirOf (stripQuery u) = []
  · -- the path denotes the root itself: `/` (or an equivalent), index at the root
    rw [hD] at hnorm
    rw [if_neg (by rintro ⟨h, _⟩; exact h rfl)] at hnorm
    simp only [icSlash] at hnorm
    simp only [requestPath, hnorm]
    rw [stripDots_slash_head]
    rw [if_pos (Or.inl rfl)]
    have hjoin : posixJoin ['/'] indexHtml = '/' :: indexHtml := by decide
    rw [hjoin]
    rw [if_pos (by decide)]
    show resolveUnder root indexHtml = root ++ dirOf (stripQuery u) ++ [indexHtml]
    rw [resolveUnder, (by decide : splitSeg indexHtml = [indexHtml]),
      normAcc_plain_push false [indexHtml] root.reverse (by decide)]
    rw [hD]
    simp
  · obtain ⟨x, xs, hDx⟩ := List.exists_cons_of_ne_nil hD
    have hx : x ≠ [] := ((hDx ▸ hplain) x (List.mem_cons_self x xs)).1
    have hcore : icSlash (dirOf (stripQuery u)) ≠ [] :=
      icSlash_ne_nil _ x xs hDx hx
    rw [if_pos ⟨hcore, hslash⟩] at hnorm
    simp only [requestPath, hnorm]
    rw [stripDots_slash_head]
    have hlast : (('/' :: (icSlash (dirOf (stripQuery u)) ++ ['/'])) : Str).getLast?
        = some '/' := by
      rw [← List.cons_append]
      exact List.getLast?_concat _
    rw [if_pos (Or.inr hlast)]
    have hjoin : posixJoin ('/' :: (icSlash (dirOf (stripQuery u)) ++ ['/'])) indexHtml
        = posixNormalize (('/' :: (icSlash (dirOf (stripQuery u)) ++ ['/'])) ++ '/' :: indexHtml) := by
      rw [posixJoin]
      rw [if_neg (by simp), if_neg (by simp), if_neg (by decide)]
    rw [hjoin]
    have hfreeD : ∀ z ∈ dirOf (stripQuery u), '/' ∉ z := fun z hz => (hplain z hz).2.2.2
    have hsplitD : splitSeg (icSlash (dirOf (stripQuery u))) = dirOf (stripQuery u) :=
      splitSeg_icSlash _ (by rw [hDx]; simp) hfreeD
    have hplainD : ∀ c ∈ dirOf (stripQuery u), c ≠ [] ∧ c ≠ ['.'] ∧ c ≠ dd :=
      fun c hc => ⟨(hplain c hc).1, (hplain c hc).2.1, (hplain c hc).2.2.1⟩
    have hXcons : (('/' :: (icSlash (dirOf (stripQuery u)) ++ ['/'])) : Str)
          ++ '/' :: indexHtml
        = '/' :: ((icSlash (dirOf (stripQuery u)) ++ ['/']) ++ '/' :: indexHtml) := by
      rw [List.cons_append]
    have hXlast : ((('/' :: (icSlash (dirOf (stripQuery u)) ++ ['/'])) : Str)
          ++ '/' :: indexHtml).getLast? = some 'l' := by
      rw [List.getLast?_append_of_ne_nil _ (by simp)]
      decide
    have hsegsX : splitSeg ((('/' :: (icSlash (dirOf (stripQuery u)) ++ ['/'])) : Str)
          ++ '/' :: indexHtml)
        = [] :: ((dirOf (stripQuery u) ++ [[]]) ++ [indexHtml]) := by
      rw [hXcons, splitSeg_cons_slash]
      have h1 : ((icSlash (dirOf (stripQuery u)) ++ ['/']) : Str) ++ '/' :: indexHtml
          = icSlash (dirOf (stripQuery u)) ++ '/' :: (('/' :: indexHtml : Str)) := by
        rw [List.append_assoc]
        rfl
      rw [h1, splitSeg_append_slash, hsplitD, splitSeg_cons_slash,
        (by decide : splitSeg indexHtml = [indexHtml])]
      simp
    have hdirX : dirOf ((('/' :: (icSlash (dirOf (stripQuery u)) ++ ['/'])) : Str)
          ++ '/' :: indexHtml)
        = dirOf (stripQuery u) ++ [indexHtml] := by
      rw [dirOf, hsegsX, normAcc_step_skip false [] _ _ (Or.inl rfl), normAcc_append,
        normAcc_append, normAcc_plain_push false (dirOf (stripQuery u)) [] hplainD]
      rw [List.append_nil, normAcc_step_skip false [] _ _ (Or.inl rfl)]
      show (normAcc false (dirOf (stripQuery u)).reverse [indexHtml]).reverse = _
      rw [normAcc_plain_push false [indexHtml] (dirOf (stripQuery u)).reverse (by decide)]
      simp
    have hnorm2 := posixNormalize_abs
      ((('/' :: (icSlash (dirOf (stripQuery u)) ++ ['/'])) : Str) ++ '/' :: indexHtml)
      (by simp) (by rw [hXcons]; rfl)
    rw [hdirX] at hnorm2
    rw [if_neg (by
        rintro ⟨_, h⟩
        rw [hXlast] at h
        exact absurd h (by decide))] at hnorm2
    rw [hnorm2]
    rw [if_pos (show (('/' :: icSlash (dirOf (stripQuery u) ++ [indexHtml])) : Str).head?
        = some '/' from rfl)]
    show resolveUnder root (icSlash (dirOf (stripQuery u) ++ [indexHtml])) = _
    have hfreeDI : ∀ z ∈ dirOf (stripQuery u) ++ [indexHtml], '/' ∉ z := by
      intro z hz
      rcases List.mem_append.mp hz with h | h
      · exact hfreeD z h
      · simp at h
        rw [h]
        decide
    have hsplitDI : splitSeg (icSlash (dirOf (stripQuery u) ++ [indexHtml]))
        = dirOf (stripQuery u) ++ [indexHtml] :=
      splitSeg_icSlash _ (by simp) hfreeDI
    rw [resolveUnder, hsplitDI,
      normAcc_plain_push false (dirOf (stripQuery u) ++ [indexHtml]) root.reverse (by
        intro c hc
        rcases List.mem_append.mp hc with h | h
        · exact hplainD c h
        · simp at h
          rw [h]
          refine ⟨by decide, by decide, by decide⟩)]
    simp [List.reverse_append, List.append_assoc]

/-- Witness for C8 (amended): requesting `/docs/` (with a query string)
serves `docs/index.html` under the static root. -/
theorem directory_request_resolves_index_witness :
    resolveUnder ["srv".data] (requestPath "/docs/?page=2".data)
      = ["srv".data] ++ dirOf (stripQuery "/docs/?page=2".data) ++ [indexHtml] :=
  directory_request_resolves_index ["srv".data] "/docs/?page=2".data
    (by decide) (by decide)

end FlowSync
